import Mathlib

/-!
Verification development for the syntax-highlighting engine of
`claude-history-viewer` (`src/ts/highlight.ts`).

The engine is embedded shallowly: strings are `List Char`, the JavaScript
regular expressions used by the engine are transcribed into a small regex
AST (`RE`) with a backtracking matcher (`mmatch`) following ECMAScript
ordered-alternative / greedy semantics, and `String.prototype.replace`
with a global regex and a (stateful) replacer callback is modelled by
`jsReplace`.  The rule table, `escapeHtml`, `highlight` and
`detectLanguage` are translated definition by definition from the source.
-/

namespace CHV

/-- `String.toList` shorthand used throughout the embedding. -/
def toL (s : String) : List Char := s.toList

/-- The NUL byte used by the engine as sentinel marker (`\x00`). -/
def nulChar : Char := Char.ofNat 0

/-- Backquote character (used by the JavaScript template-string rule). -/
def bqChar : Char := Char.ofNat 96

/-- Single-quote character. -/
def sqChar : Char := Char.ofNat 39

/-- Double-quote character. -/
def dqChar : Char := Char.ofNat 34

/-- Left curly brace. -/
def lbrace : Char := Char.ofNat 123

/-- Right curly brace. -/
def rbrace : Char := Char.ofNat 125

/-- JavaScript `\w` word characters: `[A-Za-z0-9_]`. -/
def isWordChar (c : Char) : Bool := c.isAlphanum || c == '_'

/-- JavaScript `\s` whitespace characters. -/
def isJsSpace (c : Char) : Bool :=
  c == ' ' || c == '\t' || c == '\n' || c == '\r' ||
  c == Char.ofNat 11 || c == Char.ofNat 12 ||
  c == Char.ofNat 0xa0 || c == Char.ofNat 0xfeff ||
  c == Char.ofNat 0x1680 ||
  (Char.ofNat 0x2000 ≤ c && c ≤ Char.ofNat 0x200a) ||
  c == Char.ofNat 0x2028 || c == Char.ofNat 0x2029 ||
  c == Char.ofNat 0x202f || c == Char.ofNat 0x205f ||
  c == Char.ofNat 0x3000

/-- JavaScript `.` (without the `s` flag): any char but a line terminator. -/
def isJsDot (c : Char) : Bool :=
  !(c == '\n' || c == '\r' || c == Char.ofNat 0x2028 || c == Char.ofNat 0x2029)

/-- Line-terminator test used by multiline `$`. -/
def isLineTerm (c : Char) : Bool :=
  c == '\n' || c == '\r' || c == Char.ofNat 0x2028 || c == Char.ofNat 0x2029

/-- Regex AST covering the constructs appearing in the engine's patterns. -/
inductive RE where
  | eps
  | chr (c : Char)
  | chri (c : Char)
  | cls (p : Char → Bool)
  | seq (a b : RE)
  | alt (a b : RE)
  | star (a : RE)
  | starLazy (a : RE)
  | opt (a : RE)
  | bound
  | eolm
  | look (a : RE)

/-- `\b` test at a position given the previous char and the rest of input. -/
def boundOk (p : Option Char) (s : List Char) : Bool :=
  (match p with
   | some c => isWordChar c
   | none => false)
  !=
  (match s with
   | c :: _ => isWordChar c
   | [] => false)

/-- Greedy star loop: try one more iteration of the body matcher `ma`
first (an iteration must consume input, as in ECMAScript's repeat
matcher), else stop.  `fuel` only bounds the recursion; it starts at
`length + 1` and cannot run out because every iteration shrinks the
input. -/
def starG (ma : Option Char → List Char →
    (Option Char → List Char → Option (List Char)) → Option (List Char)) :
    Nat → Option Char → List Char →
    (Option Char → List Char → Option (List Char)) → Option (List Char)
  | 0, p, s, k => k p s
  | fuel + 1, p, s, k =>
    (ma p s (fun p2 s2 =>
      if s2.length < s.length then starG ma fuel p2 s2 k else none)) <|> k p s

/-- Lazy star loop (`*?`): try stopping first, else one more iteration. -/
def starL (ma : Option Char → List Char →
    (Option Char → List Char → Option (List Char)) → Option (List Char)) :
    Nat → Option Char → List Char →
    (Option Char → List Char → Option (List Char)) → Option (List Char)
  | 0, p, s, k => k p s
  | fuel + 1, p, s, k =>
    k p s <|> (ma p s (fun p2 s2 =>
      if s2.length < s.length then starL ma fuel p2 s2 k else none))

/-- Backtracking matcher in continuation-passing style.  `p` is the char
just before the current position (for `\b`), `k` the continuation getting
the new previous char and the rest of the input.  Alternatives are tried
in order and the first full success wins, exactly as in ECMAScript. -/
def mmatch : RE → Option Char → List Char →
    (Option Char → List Char → Option (List Char)) → Option (List Char)
  | .eps, p, s, k => k p s
  | .chr c, _, s, k =>
    match s with
    | x :: rest => if x == c then k (some x) rest else none
    | [] => none
  | .chri c, _, s, k =>
    match s with
    | x :: rest => if x.toLower == c then k (some x) rest else none
    | [] => none
  | .cls q, _, s, k =>
    match s with
    | x :: rest => if q x then k (some x) rest else none
    | [] => none
  | .seq a b, p, s, k => mmatch a p s (fun p2 s2 => mmatch b p2 s2 k)
  | .alt a b, p, s, k => (mmatch a p s k) <|> (mmatch b p s k)
  | .star a, p, s, k => starG (mmatch a) (s.length + 1) p s k
  | .starLazy a, p, s, k => starL (mmatch a) (s.length + 1) p s k
  | .opt a, p, s, k => (mmatch a p s k) <|> k p s
  | .bound, p, s, k => if boundOk p s then k p s else none
  | .eolm, p, s, k =>
    match s with
    | [] => k p s
    | c :: _ => if isLineTerm c then k p s else none
  | .look a, p, s, k =>
    match mmatch a p s (fun _ s2 => some s2) with
    | some _ => k p s
    | none => none

/-- Length of the match of `re` at the current position, if any
(the position is described by the previous char `p` and the rest `s`). -/
def matchAt (re : RE) (p : Option Char) (s : List Char) : Option Nat :=
  match mmatch re p s (fun _ r => some r) with
  | some r => some (s.length - r.length)
  | none => none

/-- Model of `str.replace(regex-with-g-flag, callback)` where the callback
may carry state of type `σ` (the engine's callbacks append to the
placeholder ledger).  `mt p s` returns the length of a match at the
current position.  On a match the replacement is emitted and scanning
resumes after the matched text; a zero-length match (never produced by the
engine's patterns) emits the replacement and keeps the current char, as
ECMAScript does. -/
def jsReplaceF (mt : Option Char → List Char → Option Nat)
    (f : List Char → σ → List Char × σ) :
    Nat → Option Char → List Char → σ → List Char × σ
  | _, _, [], st => ([], st)
  | 0, _, c :: cs, st => (c :: cs, st)
  | fuel + 1, p, c :: cs, st =>
    match mt p (c :: cs) with
    | some n =>
      if 0 < n then
        let m := (c :: cs).take n
        let r1 := f m st
        let r2 := jsReplaceF mt f fuel m.getLast? ((c :: cs).drop n) r1.2
        (r1.1 ++ r2.1, r2.2)
      else
        let r1 := f [] st
        let r2 := jsReplaceF mt f fuel (some c) cs r1.2
        (r1.1 ++ c :: r2.1, r2.2)
    | none =>
      let r2 := jsReplaceF mt f fuel (some c) cs st
      (c :: r2.1, r2.2)

/-- Entry point of the replace model: the fuel `s.length` bounds the
number of scanning steps, which the loop never exceeds (each step
consumes at least one char of `s`; with the fuel exhausted the rest is
returned unchanged, which can only happen on empty rest). -/
def jsReplace (mt : Option Char → List Char → Option Nat)
    (f : List Char → σ → List Char × σ) (p : Option Char) (s : List Char)
    (st : σ) : List Char × σ :=
  jsReplaceF mt f s.length p s st

/-- One chained `.replace(/X/g, rep)` step with a single-char pattern. -/
def replChar (c0 : Char) (rep : List Char) (s : List Char) : List Char :=
  (jsReplace (matchAt (RE.chr c0)) (fun _ u => (rep, u)) none s ()).1

/-- `escapeHtml` from the source: three chained global replaces. -/
def escapeHtml (text : List Char) : List Char :=
  replChar '>' (toL "&gt;") (replChar '<' (toL "&lt;") (replChar '&' (toL "&amp;") text))

/-- Literal sequence of chars as a regex. -/
def lit : List Char → RE
  | [] => .eps
  | c :: cs => .seq (.chr c) (lit cs)

/-- Literal sequence, case-insensitive (for `i`-flagged patterns). -/
def litci : List Char → RE
  | [] => .eps
  | c :: cs => .seq (.chri c) (litci cs)

/-- Ordered alternation of a list of regexes (leftmost alternative wins). -/
def altRE : List RE → RE
  | [] => .eps
  | [a] => a
  | a :: rest => .alt a (altRE rest)

/-- `\d` -/
def digitC : RE := .cls Char.isDigit

/-- `X+` -/
def plusRE (a : RE) : RE := .seq a (.star a)

/-- `\w` -/
def wordC : RE := .cls isWordChar

/-- `\s` -/
def spaceC : RE := .cls isJsSpace

/-- `.` (no `s` flag) -/
def dotC : RE := .cls isJsDot

/-- `[\s\S]` -/
def anyC : RE := .cls (fun _ => true)

/-- `q(?:[^q\\]|\\.)*q`: a quoted literal with backslash escapes. -/
def qstr (q : Char) : RE :=
  .seq (.chr q)
    (.seq (.star (.alt (.cls (fun c => !(c == q || c == '\\')))
                       (.seq (.chr '\\') dotC)))
          (.chr q))

/-- `\/\/.*$` (with `m` flag). -/
def reLineComment : RE := .seq (lit (toL "//")) (.seq (.star dotC) .eolm)

/-- `\/\*[\s\S]*?\*\/` -/
def reBlockComment : RE :=
  .seq (lit (toL "/*")) (.seq (.starLazy anyC) (lit (toL "*/")))

/-- JavaScript/TypeScript comments rule `(\/\/.*$|\/\*[\s\S]*?\*\/)`. -/
def reCommentsJs : RE := .alt reLineComment reBlockComment

/-- JavaScript/TypeScript strings rule: double, single or backtick quoted. -/
def reStringsJs : RE := altRE [qstr dqChar, qstr sqChar, qstr bqChar]

/-- `(?:e[+-]?\d+)` with `i` flag. -/
def reExp : RE :=
  .seq (.chri 'e') (.seq (.opt (.cls (fun c => c == '+' || c == '-'))) (plusRE digitC))

/-- JavaScript/TypeScript numbers rule `\b(\d+\.?\d*(?:e[+-]?\d+)?)\b` (`i`). -/
def reNumJs : RE :=
  .seq .bound (.seq (plusRE digitC) (.seq (.opt (.chr '.'))
    (.seq (.star digitC) (.seq (.opt reExp) .bound))))

/-- JS operators rule `([+\-*/%=<>!&|^~?:]+)` (defined in the table, not
applied by `highlight`). -/
def reOpsJs : RE :=
  plusRE (.cls (fun c => c == '+' || c == '-' || c == '*' || c == '/' || c == '%' ||
    c == '=' || c == '<' || c == '>' || c == '!' || c == '&' || c == '|' ||
    c == '^' || c == '~' || c == '?' || c == ':'))

/-- Functions rule `\b([a-zA-Z_]\w*)\s*(?=\()`. -/
def reFunctions : RE :=
  .seq .bound (.seq (.cls (fun c => c.isAlpha || c == '_'))
    (.seq (.star wordC) (.seq (.star spaceC) (.look (.chr '(')))))

/-- Python triple-quoted literal `qqq[\s\S]*?qqq`. -/
def reTriple (q : Char) : RE :=
  .seq (lit [q, q, q]) (.seq (.starLazy anyC) (lit [q, q, q]))

/-- Python strings rule. -/
def reStringsPy : RE :=
  altRE [reTriple dqChar, reTriple sqChar, qstr dqChar, qstr sqChar]

/-- `#.*$` (with `m` flag): Python/bash comments. -/
def reCommentsHash : RE := .seq (.chr '#') (.seq (.star dotC) .eolm)

/-- Python numbers rule `\b(\d+\.?\d*(?:e[+-]?\d+)?j?)\b` (`i`). -/
def reNumPy : RE :=
  .seq .bound (.seq (plusRE digitC) (.seq (.opt (.chr '.'))
    (.seq (.star digitC) (.seq (.opt reExp) (.seq (.opt (.chri 'j')) .bound)))))

/-- Python operators rule `([+\-*/%=<>!&|^~@:]+)`. -/
def reOpsPy : RE :=
  plusRE (.cls (fun c => c == '+' || c == '-' || c == '*' || c == '/' || c == '%' ||
    c == '=' || c == '<' || c == '>' || c == '!' || c == '&' || c == '|' ||
    c == '^' || c == '~' || c == '@' || c == ':'))

/-- Bash strings rule: double-quoted with escapes or `'[^']*'`. -/
def reStringsBash : RE :=
  .alt (qstr dqChar)
    (.seq (.chr sqChar) (.seq (.star (.cls (fun c => !(c == sqChar)))) (.chr sqChar)))

/-- Bash numbers rule `\b(\d+)\b`. -/
def reNumBash : RE := .seq .bound (.seq (plusRE digitC) .bound)

/-- Bash operators rule `([|&;<>=!]+)`. -/
def reOpsBash : RE :=
  plusRE (.cls (fun c => c == '|' || c == '&' || c == ';' || c == '<' ||
    c == '>' || c == '=' || c == '!'))

/-- JSON strings rule `("(?:[^"\\]|\\.)*")\s*(?=:)` (keys only). -/
def reStringsJson : RE :=
  .seq (qstr dqChar) (.seq (.star spaceC) (.look (.chr ':')))

/-- JSON numbers rule `\b(-?\d+\.?\d*(?:e[+-]?\d+)?)\b` (`i`). -/
def reNumJson : RE :=
  .seq .bound (.seq (.opt (.chr '-')) (.seq (plusRE digitC) (.seq (.opt (.chr '.'))
    (.seq (.star digitC) (.seq (.opt reExp) .bound)))))

/-- CSS strings rule: double or single quoted. -/
def reStringsCss : RE := .alt (qstr dqChar) (qstr sqChar)

/-- CSS comments rule `(\/\*[\s\S]*?\*\/)`. -/
def reCommentsCss : RE := reBlockComment

/-- CSS unit suffix `(?:px|em|rem|%|vh|vw|deg|s|ms)` (`i`). -/
def reCssUnit : RE :=
  altRE [litci (toL "px"), litci (toL "em"), litci (toL "rem"), lit (toL "%"),
         litci (toL "vh"), litci (toL "vw"), litci (toL "deg"),
         litci (toL "s"), litci (toL "ms")]

/-- CSS numbers rule `\b(\d+\.?\d*(?:px|em|rem|%|vh|vw|deg|s|ms)?)\b` (`i`). -/
def reNumCss : RE :=
  .seq .bound (.seq (plusRE digitC) (.seq (.opt (.chr '.'))
    (.seq (.star digitC) (.seq (.opt reCssUnit) .bound))))

/-- HTML comments rule `(<!--[\s\S]*?-->)`. -/
def reCommentsHtml : RE :=
  .seq (lit (toL "<!--")) (.seq (.starLazy anyC) (lit (toL "-->")))

/-- HTML strings rule: double or single quoted. -/
def reStringsHtml : RE := .alt (qstr dqChar) (qstr sqChar)

/-- The sentinel-restoration pattern `\x00(\d+)\x00`. -/
def reSentinel : RE := .seq (.chr nulChar) (.seq (plusRE digitC) (.chr nulChar))

/-- Per-language rule record, mirroring the `LanguageRules` interface. -/
structure LanguageRules where
  keywords : Option (List (List Char))
  types : Option (List (List Char))
  builtins : Option (List (List Char))
  strings : Option RE
  comments : Option RE
  numbers : Option RE
  operators : Option RE
  functions : Option RE

/-- The `javascript` entry of the rule table. -/
def javascriptRules : LanguageRules where
  keywords := some ((["const", "let", "var", "function", "return", "if", "else",
    "for", "while", "do", "switch", "case", "break", "continue", "try", "catch",
    "finally", "throw", "async", "await", "class", "extends", "new", "this",
    "super", "import", "export", "from", "default", "typeof", "instanceof",
    "in", "of", "delete", "void", "yield"]).map toL)
  types := some ((["null", "undefined", "true", "false", "NaN", "Infinity"]).map toL)
  builtins := some ((["console", "window", "document", "Math", "JSON", "Array",
    "Object", "String", "Number", "Boolean", "Date", "RegExp", "Error",
    "Promise", "Map", "Set"]).map toL)
  strings := some reStringsJs
  comments := some reCommentsJs
  numbers := some reNumJs
  operators := some reOpsJs
  functions := some reFunctions

/-- The `typescript` entry of the rule table. -/
def typescriptRules : LanguageRules where
  keywords := some ((["const", "let", "var", "function", "return", "if", "else",
    "for", "while", "do", "switch", "case", "break", "continue", "try", "catch",
    "finally", "throw", "async", "await", "class", "extends", "new", "this",
    "super", "import", "export", "from", "default", "typeof", "instanceof",
    "in", "of", "delete", "void", "yield", "type", "interface", "enum",
    "namespace", "module", "declare", "abstract", "implements", "private",
    "public", "protected", "readonly", "static", "as", "is", "keyof",
    "infer"]).map toL)
  types := some ((["null", "undefined", "true", "false", "NaN", "Infinity",
    "string", "number", "boolean", "any", "unknown", "never", "void",
    "object"]).map toL)
  builtins := some ((["console", "window", "document", "Math", "JSON", "Array",
    "Object", "String", "Number", "Boolean", "Date", "RegExp", "Error",
    "Promise", "Map", "Set", "Record", "Partial", "Required", "Pick",
    "Omit"]).map toL)
  strings := some reStringsJs
  comments := some reCommentsJs
  numbers := some reNumJs
  operators := some reOpsJs
  functions := some reFunctions

/-- The `python` entry of the rule table. -/
def pythonRules : LanguageRules where
  keywords := some ((["def", "class", "if", "elif", "else", "for", "while",
    "try", "except", "finally", "with", "as", "import", "from", "return",
    "yield", "raise", "pass", "break", "continue", "lambda", "and", "or",
    "not", "in", "is", "global", "nonlocal", "assert", "del", "async",
    "await"]).map toL)
  types := some ((["None", "True", "False"]).map toL)
  builtins := some ((["print", "len", "range", "str", "int", "float", "list",
    "dict", "set", "tuple", "bool", "type", "isinstance", "hasattr", "getattr",
    "setattr", "open", "input", "map", "filter", "zip", "enumerate", "sorted",
    "reversed", "sum", "min", "max", "abs", "round"]).map toL)
  strings := some reStringsPy
  comments := some reCommentsHash
  numbers := some reNumPy
  operators := some reOpsPy
  functions := some reFunctions

/-- The `bash` entry of the rule table. -/
def bashRules : LanguageRules where
  keywords := some ((["if", "then", "else", "elif", "fi", "for", "do", "done",
    "while", "until", "case", "esac", "function", "return", "in",
    "select"]).map toL)
  types := none
  builtins := some ((["echo", "cd", "pwd", "ls", "cat", "grep", "sed", "awk",
    "find", "xargs", "sort", "uniq", "wc", "head", "tail", "cut", "tr",
    "mkdir", "rm", "cp", "mv", "chmod", "chown", "export", "source", "alias",
    "exit"]).map toL)
  strings := some reStringsBash
  comments := some reCommentsHash
  numbers := some reNumBash
  operators := some reOpsBash
  functions := none

/-- The `json` entry of the rule table. -/
def jsonRules : LanguageRules where
  keywords := none
  types := some ((["true", "false", "null"]).map toL)
  builtins := none
  strings := some reStringsJson
  comments := none
  numbers := some reNumJson
  operators := none
  functions := none

/-- The `css` entry of the rule table. -/
def cssRules : LanguageRules where
  keywords := some ((["@import", "@media", "@keyframes", "@font-face",
    "@supports", "@charset"]).map toL)
  types := none
  builtins := some ((["inherit", "initial", "unset", "none", "auto", "block",
    "inline", "flex", "grid", "absolute", "relative", "fixed",
    "sticky"]).map toL)
  strings := some reStringsCss
  comments := some reCommentsCss
  numbers := some reNumCss
  operators := none
  functions := none

/-- The `html` entry of the rule table. -/
def htmlRules : LanguageRules where
  keywords := none
  types := none
  builtins := none
  strings := some reStringsHtml
  comments := some reCommentsHtml
  numbers := none
  operators := none
  functions := none

/-- The truthy non-rule objects reached through the prototype chain of
the `languages` object literal: `languages["constructor"]` is the
`Object` function and `languages["__proto__"]` is `Object.prototype`.
Both are truthy, so `highlight` does not take its early-return branch for
them, but neither carries any of the eight rule fields, so every pass is
skipped and only the restoration replace runs. -/
def ghostRules : LanguageRules where
  keywords := none
  types := none
  builtins := none
  strings := none
  comments := none
  numbers := none
  operators := none
  functions := none

/-- The rule table with its aliases, as a lookup on the (already
lowercased) language key.  Aliases `js`, `ts`, `py`, `sh`, `shell`, `zsh`
point at the same records, as in the source.  Because `languages` is a
plain object literal, property lookup falls through to
`Object.prototype`: of its property names only `constructor` and
`__proto__` are all-lowercase (hence reachable after `toLowerCase()`),
and for those two keys the lookup yields a truthy object with none of
the rule fields (`ghostRules`) instead of "no rules". -/
def lookupLang (l : List Char) : Option LanguageRules :=
  if l == toL "javascript" || l == toL "js" then some javascriptRules
  else if l == toL "typescript" || l == toL "ts" then some typescriptRules
  else if l == toL "python" || l == toL "py" then some pythonRules
  else if l == toL "bash" || l == toL "sh" || l == toL "shell" || l == toL "zsh" then
    some bashRules
  else if l == toL "json" then some jsonRules
  else if l == toL "css" then some cssRules
  else if l == toL "html" then some htmlRules
  else if l == toL "constructor" || l == toL "__proto__" then some ghostRules
  else none

/-- `language?.toLowerCase()` (ASCII lowering, as all table keys are ASCII)
followed by the falsy check and the table lookup:
`const rules = lang ? languages[lang] : null`. -/
def langRules (language : Option (List Char)) : Option LanguageRules :=
  match language with
  | none => none
  | some l =>
    let lang := l.map Char.toLower
    if lang == [] then none else lookupLang lang

/-- `<span class="hl-CLS">M</span>`. -/
def wrapSpan (cls : List Char) (m : List Char) : List Char :=
  toL "<span class=\"hl-" ++ cls ++ toL "\">" ++ m ++ toL "</span>"

/-- Decimal digit character for `d < 10`. -/
def digitChar (d : Nat) : Char := Char.ofNat (48 + d)

/-- Decimal digits of a natural number, most significant first
(accumulator form; the fuel bounds the number of divisions and never
runs out when it starts at the number itself). -/
def natDigitsAux : Nat → Nat → List Char → List Char
  | _, 0, acc => acc
  | 0, _ + 1, acc => acc
  | fuel + 1, n + 1, acc =>
    natDigitsAux fuel ((n + 1) / 10) (digitChar ((n + 1) % 10) :: acc)

/-- Decimal notation of `n`, as JavaScript template interpolation
renders the ledger index. -/
def natDigits (n : Nat) : List Char :=
  match n with
  | 0 => [digitChar 0]
  | m + 1 => natDigitsAux (m + 1) (m + 1) []

/-- The sentinel token `\x00IDX\x00` for ledger index `i`. -/
def sentinel (i : Nat) : List Char :=
  nulChar :: (natDigits i ++ [nulChar])

/-- The body of the `placeholder` closure: append the rendered span to the
ledger and return the sentinel carrying the new index. -/
def placeholder (cls : List Char) (m : List Char) (led : List (List Char)) :
    List Char × List (List Char) :=
  (sentinel led.length, led ++ [wrapSpan cls m])

/-- One pattern pass: `result.replace(rules.X, (m) => placeholder(m, cls))`. -/
def runPat (cls : List Char) (re : RE) (s : List Char) (led : List (List Char)) :
    List Char × List (List Char) :=
  jsReplace (matchAt re) (placeholder cls) none s led

/-- A pattern pass guarded by presence of the rule field. -/
def runPatOpt (cls : List Char) (re : Option RE)
    (p : List Char × List (List Char)) : List Char × List (List Char) :=
  match re with
  | none => p
  | some r => runPat cls r p.1 p.2

/-- Word-list regex construction
`new RegExp('\\b(' + words.join('|') + ')\\b', 'g')`. -/
def reWords (ws : List (List Char)) : RE :=
  .seq .bound (.seq (altRE (ws.map lit)) .bound)

/-- A word-list pass guarded by presence of the word-list field. -/
def runWordsOpt (cls : List Char) (ws : Option (List (List Char)))
    (p : List Char × List (List Char)) : List Char × List (List Char) :=
  match ws with
  | none => p
  | some w => runPat cls (reWords w) p.1 p.2

/-- `parseInt(idx, 10)` on a digit string. -/
def parseDigits (ds : List Char) : Nat :=
  ds.foldl (fun a c => 10 * a + (c.toNat - 48)) 0

/-- Replacement of the restoration pass: `placeholders[parseInt(idx, 10)]`;
an out-of-range index yields JavaScript `undefined`, which `replace`
stringifies to `"undefined"`. -/
def restoreRep (led : List (List Char)) (m : List Char) : List Char :=
  match led.get? (parseDigits (m.drop 1).dropLast) with
  | some e => e
  | none => toL "undefined"

/-- The restoration pass
`result.replace(/\x00(\d+)\x00/g, (_, idx) => placeholders[parseInt(idx, 10)])`. -/
def restore (s : List Char) (led : List (List Char)) : List Char :=
  (jsReplace (matchAt reSentinel) (fun m l => (restoreRep l m, l)) none s led).1

/-- `highlight(code, language?)` from the source: escape, look up rules,
run the seven passes in order, restore the placeholders. -/
def highlight (code : List Char) (language : Option (List Char)) : List Char :=
  let result := escapeHtml code
  match langRules language with
  | none => result
  | some rules =>
    let p := (result, ([] : List (List Char)))
    let p := runPatOpt (toL "comment") rules.comments p
    let p := runPatOpt (toL "string") rules.strings p
    let p := runPatOpt (toL "number") rules.numbers p
    let p := runPatOpt (toL "function") rules.functions p
    let p := runWordsOpt (toL "keyword") rules.keywords p
    let p := runWordsOpt (toL "type") rules.types p
    let p := runWordsOpt (toL "builtin") rules.builtins p
    restore p.1 p.2

/-- `code.includes(sub)`. -/
def hasSub (s : List Char) (n : List Char) : Bool :=
  match s with
  | [] => n.isEmpty
  | _ :: t => n.isPrefixOf s || hasSub t n

/-- `detectLanguage(code)` from the source: ordered substring heuristics,
first match wins. -/
def detectLanguage (code : List Char) : Option (List Char) :=
  if hasSub code (toL "#!/bin/bash") || hasSub code (toL "#!/bin/sh") then
    some (toL "bash")
  else if hasSub code (toL "#!/usr/bin/env python") then some (toL "python")
  else if hasSub code (toL "def ") && hasSub code (toL ":") then
    some (toL "python")
  else if hasSub code (toL "function ") || hasSub code (toL "=>") then
    some (toL "javascript")
  else if hasSub code (toL "interface ") || hasSub code (toL ": string") then
    some (toL "typescript")
  else if [lbrace].isPrefixOf code && [rbrace].isSuffixOf code then
    some (toL "json")
  else if hasSub code (toL "<!DOCTYPE") || hasSub code (toL "<html") then
    some (toL "html")
  else none

/-- The seven span categories the engine can emit. -/
def classes : List (List Char) :=
  [toL "comment", toL "string", toL "number", toL "function",
   toL "keyword", toL "type", toL "builtin"]

/-- The opening wrapper tag for a category. -/
def openTag (cls : List Char) : List Char :=
  toL "<span class=\"hl-" ++ cls ++ toL "\">"

/-- The closing wrapper tag. -/
def closeTag : List Char := toL "</span>"

/-- All wrapper-tag literals the engine can emit. -/
def tagLits : List (List Char) := closeTag :: classes.map openTag

/-- Strip the first literal of `ts` that is a prefix of `s`. -/
def stripTagFrom : List (List Char) → List Char → Option (List Char)
  | [], _ => none
  | t :: ts, s => if t.isPrefixOf s then some (s.drop t.length) else stripTagFrom ts s

/-- Strip one of the engine's wrapper tags from the front of `s`. -/
def stripTag (s : List Char) : Option (List Char) := stripTagFrom tagLits s

/-- Scanner for the "only the engine's own wrappers" property, written
with a skip counter so the recursion is structural: with the counter at
`k + 1` the current char is part of an already-recognized tag and is
skipped; with the counter at `0` every `<` must begin one of the eight
wrapper-tag literals (whose remaining chars, `>` included, are then
skipped), and `>` never occurs elsewhere. -/
def wfsS : Nat → List Char → Bool
  | _, [] => true
  | k + 1, _ :: r => wfsS k r
  | 0, c :: r =>
    match stripTag (c :: r) with
    | some r2 => wfsS ((c :: r).length - r2.length - 1) r
    | none => if c == '<' || c == '>' then false else wfsS 0 r

/-- Checker for the "only the engine's own wrappers" property. -/
def wfs (s : List Char) : Bool := wfsS 0 s

/-- Delete every wrapper-tag literal from `s`, with the same skip-counter
device (used to express "removing the engine's own wrappers"). -/
def removeTagsS : Nat → List Char → List Char
  | _, [] => []
  | k + 1, _ :: r => removeTagsS k r
  | 0, c :: r =>
    match stripTag (c :: r) with
    | some r2 => removeTagsS ((c :: r).length - r2.length - 1) r
    | none => c :: removeTagsS 0 r

/-- Delete every wrapper-tag literal from `s`. -/
def removeTags (s : List Char) : List Char := removeTagsS 0 s

/-- The comment-span opening tag. -/
def commentOpen : List Char := openTag (toL "comment")

/-- The keyword-span opening tag. -/
def kwOpen : List Char := openTag (toL "keyword")

/-- Scan the inside of a comment span: fail (`none`) if a keyword-span
opening tag occurs before the first closing tag, otherwise return the
text after the closing tag (or after the end of input). -/
def afterComment : List Char → Option (List Char)
  | [] => some []
  | c :: r =>
    if kwOpen.isPrefixOf (c :: r) then none
    else if closeTag.isPrefixOf (c :: r) then some ((c :: r).drop closeTag.length)
    else afterComment r

/-- Scanner for claim C1, with a skip counter so the recursion is
structural: at a comment-span opening tag, `afterComment` checks the
span's inside and the scanner skips up to the first closing tag. -/
def noKwS : Nat → List Char → Bool
  | _, [] => true
  | k + 1, _ :: r => noKwS k r
  | 0, c :: r =>
    if commentOpen.isPrefixOf (c :: r) then
      match afterComment ((c :: r).drop commentOpen.length) with
      | some r2 => noKwS ((c :: r).length - r2.length - 1) r
      | none => false
    else noKwS 0 r

/-- Checker for claim C1: inside every comment span of the output (from
its opening tag up to the first closing tag) no keyword-span opening tag
occurs. -/
def noKwInComment (s : List Char) : Bool := noKwS 0 s

/-- Output decomposition: the final string is a concatenation of plain
chunks and rendered span wrappers. -/
inductive Piece where
  | chunk (cs : List Char)
  | tag (cls : List Char) (m : List Char)

/-- Rendered text of one piece. -/
def renderPiece : Piece → List Char
  | .chunk cs => cs
  | .tag cls m => wrapSpan cls m

/-- Rendered text of a piece list. -/
def renderPieces : List Piece → List Char
  | [] => []
  | p :: ps => renderPiece p ++ renderPieces ps

/-- A character that is neither `<` nor `>`. -/
def PlainChar (c : Char) : Prop := c ≠ '<' ∧ c ≠ '>'

instance (c : Char) : Decidable (PlainChar c) := by
  unfold PlainChar
  infer_instance

/-- Well-formedness of a piece: chunks are made of plain characters, tags
carry one of the seven categories and plain wrapped content. -/
def PieceOk : Piece → Prop
  | .chunk cs => ∀ c ∈ cs, PlainChar c
  | .tag cls m => cls ∈ classes ∧ ∀ c ∈ m, PlainChar c

/-- Ledger well-formedness: every entry is a rendered span of one of the
seven categories around plain content. -/
def LedgerOk (led : List (List Char)) : Prop :=
  ∀ e ∈ led, ∃ cls m, cls ∈ classes ∧ (∀ c ∈ m, PlainChar c) ∧ e = wrapSpan cls m

/-- Well-formedness of a working state (text, ledger) between passes. -/
def StateOk (p : List Char × List (List Char)) : Prop :=
  (∀ c ∈ p.1, PlainChar c) ∧ LedgerOk p.2

/-- The character substitution described by the spec for the Escaper:
`&` ↦ `&amp;`, `<` ↦ `&lt;`, `>` ↦ `&gt;`, all else verbatim.  (This is
the spec-side definition C8 compares `escapeHtml` against.) -/
def escCharSpec (c : Char) : List Char :=
  if c = '&' then toL "&amp;"
  else if c = '<' then toL "&lt;"
  else if c = '>' then toL "&gt;"
  else [c]

/-- Character-by-character image of a string under a substitution. -/
def charImage (f : Char → List Char) : List Char → List Char
  | [] => []
  | c :: cs => f c ++ charImage f cs

theorem isPrefixOf_head_ne {t : List Char} {c : Char} {r : List Char}
    (h : t.head? = some '<') (hc : c ≠ '<') : t.isPrefixOf (c :: r) = false := by
  cases t with
  | nil => simp at h
  | cons a t2 =>
    simp at h
    subst h
    simp [List.isPrefixOf]
    intro h2
    exact absurd h2.symm hc

theorem isPrefixOf_append_self (a x : List Char) : a.isPrefixOf (a ++ x) = true :=
  List.isPrefixOf_iff_prefix.2 (List.prefix_append a x)

theorem not_isPrefixOf_append {a b : List Char} (x : List Char)
    (h1 : ¬ a <+: b) (h2 : ¬ b <+: a) : a.isPrefixOf (b ++ x) = false := by
  cases hab : a.isPrefixOf (b ++ x) with
  | false => rfl
  | true =>
    have h3 := List.isPrefixOf_iff_prefix.1 hab
    rcases List.prefix_or_prefix_of_prefix h3 (List.prefix_append b x) with h | h
    · exact absurd h h1
    · exact absurd h h2

theorem stripTagFrom_head_ne {ts : List (List Char)} {c : Char} {r : List Char}
    (hts : ∀ t ∈ ts, t.head? = some '<') (hc : c ≠ '<') :
    stripTagFrom ts (c :: r) = none := by
  induction ts with
  | nil => rfl
  | cons t ts ih =>
    have h1 : t.isPrefixOf (c :: r) = false :=
      isPrefixOf_head_ne (hts t (by simp)) hc
    simp only [stripTagFrom, h1]
    simp only [Bool.false_eq_true, if_false]
    exact ih (fun u hu => hts u (by simp [hu]))

theorem tagLits_heads : ∀ t ∈ tagLits, t.head? = some '<' := by decide

theorem stripTag_plain {c : Char} {r : List Char} (hc : c ≠ '<') :
    stripTag (c :: r) = none :=
  stripTagFrom_head_ne tagLits_heads hc

theorem stripTagFrom_exact {ts : List (List Char)} {t : List Char} (x : List Char)
    (ht : t ∈ ts)
    (hone : ∀ a ∈ ts, ∀ b ∈ ts, a ≠ b → ¬ a <+: b) :
    stripTagFrom ts (t ++ x) = some x := by
  induction ts with
  | nil => simp at ht
  | cons a ts ih =>
    by_cases hat : a = t
    · subst hat
      simp only [stripTagFrom, isPrefixOf_append_self]
      simp [List.drop_left]
    · have hmem : t ∈ ts := by
        rcases List.mem_cons.1 ht with h | h
        · exact absurd h.symm hat
        · exact h
      have h1 : a.isPrefixOf (t ++ x) = false :=
        not_isPrefixOf_append x
          (hone a (by simp) t (by simp [hmem]) hat)
          (hone t (by simp [hmem]) a (by simp) (fun h => hat h.symm))
      simp only [stripTagFrom, h1]
      simp only [Bool.false_eq_true, if_false]
      exact ih hmem
        (fun u hu v hv huv => hone u (by simp [hu]) v (by simp [hv]) huv)

theorem tagLits_no_mutual_prefix :
    ∀ a ∈ tagLits, ∀ b ∈ tagLits, a ≠ b → ¬ a <+: b := by decide

theorem openTag_mem_tagLits {cls : List Char} (h : cls ∈ classes) :
    openTag cls ∈ tagLits := by
  simp only [tagLits, List.mem_cons]
  right
  exact List.mem_map_of_mem openTag h

theorem stripTag_tag {cls : List Char} (h : cls ∈ classes) (x : List Char) :
    stripTag (openTag cls ++ x) = some x :=
  stripTagFrom_exact x (openTag_mem_tagLits h) tagLits_no_mutual_prefix

theorem stripTag_close (x : List Char) : stripTag (closeTag ++ x) = some x :=
  stripTagFrom_exact x (by simp [tagLits]) tagLits_no_mutual_prefix

theorem wrapSpan_decomp (cls m : List Char) :
    wrapSpan cls m = openTag cls ++ (m ++ closeTag) := by
  simp [wrapSpan, openTag, closeTag, List.append_assoc]

theorem openTag_ne_nil (cls : List Char) : openTag cls ≠ [] := by
  simp only [openTag]
  intro h
  rcases List.append_eq_nil.1 h with ⟨h1, _⟩
  rcases List.append_eq_nil.1 h1 with ⟨h2, _⟩
  exact absurd h2 (by decide)

theorem wfsS_skip (xs r : List Char) : wfsS xs.length (xs ++ r) = wfsS 0 r := by
  induction xs with
  | nil => rfl
  | cons c cs ih => simpa [wfsS] using ih

theorem wfs_step_plain {c : Char} {r : List Char} (h : PlainChar c) :
    wfsS 0 (c :: r) = wfsS 0 r := by
  have h1 : stripTag (c :: r) = none := stripTag_plain h.1
  have h2 : (c == '<' || c == '>') = false := by
    rcases h with ⟨hl, hg⟩
    simp [hl, hg]
  simp only [wfsS, h1, h2]
  simp

theorem wfs_chunk (cs r : List Char) (h : ∀ c ∈ cs, PlainChar c) :
    wfsS 0 (cs ++ r) = wfsS 0 r := by
  induction cs with
  | nil => rfl
  | cons c cs ih =>
    rw [List.cons_append, wfs_step_plain (h c (by simp))]
    exact ih (fun u hu => h u (by simp [hu]))

theorem wfs_strip_of (t r2 : List Char) (hne : t ≠ [])
    (hs : stripTag (t ++ r2) = some r2) : wfsS 0 (t ++ r2) = wfsS 0 r2 := by
  cases t with
  | nil => exact absurd rfl hne
  | cons c ts =>
    rw [List.cons_append] at hs ⊢
    simp only [wfsS, hs]
    have hlen : (c :: (ts ++ r2)).length - r2.length - 1 = ts.length := by
      simp only [List.length_cons, List.length_append]
      omega
    rw [hlen, wfsS_skip]

theorem wfs_tag (cls m r : List Char) (hcls : cls ∈ classes)
    (hm : ∀ c ∈ m, PlainChar c) :
    wfsS 0 (wrapSpan cls m ++ r) = wfsS 0 r := by
  rw [wrapSpan_decomp, List.append_assoc, List.append_assoc]
  rw [wfs_strip_of (openTag cls) (m ++ (closeTag ++ r)) (openTag_ne_nil cls)
    (stripTag_tag hcls _)]
  rw [wfs_chunk m (closeTag ++ r) hm]
  exact wfs_strip_of closeTag r (by decide) (stripTag_close r)

theorem wfs_render (ps : List Piece) (h : ∀ p ∈ ps, PieceOk p) :
    wfs (renderPieces ps) = true := by
  have main : wfsS 0 (renderPieces ps) = true := by
    induction ps with
    | nil => rfl
    | cons p ps ih =>
      have hp := h p (by simp)
      have hrest := ih (fun q hq => h q (by simp [hq]))
      cases p with
      | chunk cs =>
        simpa [renderPieces, renderPiece, wfs_chunk cs (renderPieces ps) hp]
          using hrest
      | tag cls m =>
        rcases hp with ⟨hcls, hm⟩
        simpa [renderPieces, renderPiece,
          wfs_tag cls m (renderPieces ps) hcls hm] using hrest
  exact main

theorem noKwS_skip (xs r : List Char) : noKwS xs.length (xs ++ r) = noKwS 0 r := by
  induction xs with
  | nil => rfl
  | cons c cs ih => simpa [noKwS] using ih

theorem commentOpen_head : commentOpen.head? = some '<' := by decide

theorem noKw_step {c : Char} {r : List Char}
    (h : commentOpen.isPrefixOf (c :: r) = false) :
    noKwS 0 (c :: r) = noKwS 0 r := by
  simp only [noKwS, h]
  simp

theorem noKw_chunk (cs r : List Char) (h : ∀ c ∈ cs, c ≠ '<') :
    noKwS 0 (cs ++ r) = noKwS 0 r := by
  induction cs with
  | nil => rfl
  | cons c cs ih =>
    rw [List.cons_append,
      noKw_step (isPrefixOf_head_ne commentOpen_head (h c (by simp)))]
    exact ih (fun u hu => h u (by simp [hu]))

theorem kwOpen_head : kwOpen.head? = some '<' := by decide

theorem closeTag_head : closeTag.head? = some '<' := by decide

theorem afterComment_chunk (m z : List Char) (h : ∀ c ∈ m, c ≠ '<') :
    afterComment (m ++ z) = afterComment z := by
  induction m with
  | nil => rfl
  | cons c cs ih =>
    rw [List.cons_append]
    simp only [afterComment,
      isPrefixOf_head_ne kwOpen_head (h c (by simp)),
      isPrefixOf_head_ne closeTag_head (h c (by simp))]
    simp only [Bool.false_eq_true, if_false]
    exact ih (fun u hu => h u (by simp [hu]))

theorem afterComment_close (r : List Char) : afterComment (closeTag ++ r) = some r := by
  simp [afterComment, closeTag, kwOpen, openTag, toL, List.isPrefixOf]

theorem noKw_strip_comment (m r : List Char) (hm : ∀ c ∈ m, c ≠ '<') :
    noKwS 0 (commentOpen ++ (m ++ (closeTag ++ r))) = noKwS 0 r := by
  have hafter : afterComment (m ++ (closeTag ++ r)) = some r := by
    rw [afterComment_chunk m (closeTag ++ r) hm, afterComment_close]
  rcases hco : commentOpen with _ | ⟨c, ts⟩
  · exact absurd hco (by decide)
  · rw [List.cons_append]
    have hpre : commentOpen.isPrefixOf (c :: (ts ++ (m ++ (closeTag ++ r)))) = true := by
      rw [← List.cons_append, ← hco]
      exact isPrefixOf_append_self _ _
    have hdrop : (c :: (ts ++ (m ++ (closeTag ++ r)))).drop commentOpen.length
        = m ++ (closeTag ++ r) := by
      rw [← List.cons_append, ← hco]
      exact List.drop_left _ _
    simp only [noKwS, hpre, if_true, hdrop, hafter]
    have hlen : (c :: (ts ++ (m ++ (closeTag ++ r)))).length - r.length - 1
        = (ts ++ (m ++ closeTag)).length := by
      simp only [List.length_cons, List.length_append]
      omega
    rw [hlen, show ts ++ (m ++ (closeTag ++ r)) = (ts ++ (m ++ closeTag)) ++ r by
      simp [List.append_assoc]]
    exact noKwS_skip _ r

theorem openTag_inj {a b : List Char} (h : openTag a = openTag b) : a = b := by
  simp only [openTag, List.append_assoc] at h
  have h2 := List.append_cancel_left h
  exact List.append_cancel_right h2

theorem classes_plain : ∀ cls ∈ classes, ∀ c ∈ cls, c ≠ '<' := by decide

theorem noKw_tag_other (cls m r : List Char) (hcls : cls ∈ classes)
    (hne : cls ≠ toL "comment") (hm : ∀ c ∈ m, c ≠ '<') :
    noKwS 0 (wrapSpan cls m ++ r) = noKwS 0 r := by
  have hfalse : commentOpen.isPrefixOf (wrapSpan cls m ++ r) = false := by
    rw [wrapSpan_decomp, List.append_assoc]
    refine not_isPrefixOf_append _ ?_ ?_
    · have h1 : commentOpen ∈ tagLits := openTag_mem_tagLits (by decide)
      have h2 : openTag cls ∈ tagLits := openTag_mem_tagLits hcls
      refine tagLits_no_mutual_prefix _ h1 _ h2 ?_
      intro h3
      exact absurd (openTag_inj h3).symm hne
    · have h1 : commentOpen ∈ tagLits := openTag_mem_tagLits (by decide)
      have h2 : openTag cls ∈ tagLits := openTag_mem_tagLits hcls
      refine tagLits_no_mutual_prefix _ h2 _ h1 ?_
      intro h3
      exact absurd (openTag_inj h3) hne
  have hshape : wrapSpan cls m ++ r
      = '<' :: ((toL "span class=\"hl-" ++ (cls ++ (toL "\">" ++ m))) ++ (closeTag ++ r)) := by
    rw [wrapSpan_decomp, List.append_assoc]
    rw [show openTag cls = '<' :: (toL "span class=\"hl-" ++ (cls ++ toL "\">")) by
      simp [openTag, List.append_assoc]
      rw [show toL "<span class=\"hl-" = '<' :: toL "span class=\"hl-" from by decide]
      simp [List.append_assoc]]
    simp [List.append_assoc]
  rw [hshape] at hfalse ⊢
  rw [noKw_step hfalse]
  rw [noKw_chunk (toL "span class=\"hl-" ++ (cls ++ (toL "\">" ++ m))) (closeTag ++ r) ?hb]
  case hb =>
    intro c hc
    simp only [List.mem_append] at hc
    rcases hc with h | h | h | h
    · revert c
      decide
    · exact classes_plain cls hcls c h
    · revert c
      decide
    · exact hm c h
  have hfalse2 : commentOpen.isPrefixOf (closeTag ++ r) = false :=
    not_isPrefixOf_append r (by decide) (by decide)
  have h7 : closeTag = '<' :: toL "/span>" := by decide
  rw [h7, List.cons_append] at hfalse2 ⊢
  rw [noKw_step hfalse2]
  rw [noKw_chunk (toL "/span>") r (by decide)]

theorem noKw_render (ps : List Piece) (h : ∀ p ∈ ps, PieceOk p) :
    noKwInComment (renderPieces ps) = true := by
  have main : noKwS 0 (renderPieces ps) = true := by
    induction ps with
    | nil => rfl
    | cons p ps ih =>
      have hp := h p (by simp)
      have hrest := ih (fun q hq => h q (by simp [hq]))
      cases p with
      | chunk cs =>
        have hcs : ∀ c ∈ cs, c ≠ '<' := fun c hc => (hp c hc).1
        simpa [renderPieces, renderPiece, noKw_chunk cs (renderPieces ps) hcs]
          using hrest
      | tag cls m =>
        rcases hp with ⟨hcls, hm⟩
        have hm2 : ∀ c ∈ m, c ≠ '<' := fun c hc => (hm c hc).1
        by_cases hcomment : cls = toL "comment"
        · subst hcomment
          have hq : wrapSpan (toL "comment") m ++ renderPieces ps
              = commentOpen ++ (m ++ (closeTag ++ renderPieces ps)) := by
            rw [wrapSpan_decomp]
            simp [commentOpen, List.append_assoc]
          simpa [renderPieces, renderPiece, hq,
            noKw_strip_comment m (renderPieces ps) hm2] using hrest
        · simpa [renderPieces, renderPiece,
            noKw_tag_other cls m (renderPieces ps) hcls hcomment hm2] using hrest
  exact main

theorem matchAt_chr (c0 : Char) (p : Option Char) (c : Char) (cs : List Char) :
    matchAt (RE.chr c0) p (c :: cs) = if c = c0 then some 1 else none := by
  by_cases h : c = c0
  · subst h
    simp [matchAt, mmatch, Nat.add_sub_cancel_left]
  · simp [matchAt, mmatch, h]

theorem replChar_aux (c0 : Char) (rep : List Char) :
    ∀ (s : List Char) (p : Option Char),
      (jsReplaceF (matchAt (RE.chr c0)) (fun _ u => (rep, u)) s.length p s ()).1
        = charImage (fun c => if c = c0 then rep else [c]) s := by
  intro s
  induction s with
  | nil => intro p; rfl
  | cons c cs ih =>
    intro p
    by_cases h : c = c0
    · simp [jsReplaceF, matchAt_chr, h, charImage, ih]
    · simp [jsReplaceF, matchAt_chr, h, charImage, ih]

theorem replChar_eq (c0 : Char) (rep : List Char) (s : List Char) :
    replChar c0 rep s = charImage (fun c => if c = c0 then rep else [c]) s :=
  replChar_aux c0 rep s none

theorem charImage_append (f : Char → List Char) (a b : List Char) :
    charImage f (a ++ b) = charImage f a ++ charImage f b := by
  induction a with
  | nil => rfl
  | cons c cs ih => simp [charImage, ih]

theorem escapeHtml_charImage (s : List Char) :
    escapeHtml s = charImage escCharSpec s := by
  unfold escapeHtml
  rw [replChar_eq, replChar_eq, replChar_eq]
  induction s with
  | nil => rfl
  | cons c cs ih =>
    simp only [charImage, charImage_append, ih]
    congr 1
    by_cases h1 : c = '&'
    · subst h1; decide
    · by_cases h2 : c = '<'
      · subst h2; decide
      · by_cases h3 : c = '>'
        · subst h3; decide
        · simp [charImage, escCharSpec, h1, h2, h3]

theorem charImage_mem {f : Char → List Char} {s : List Char} {c : Char}
    (h : c ∈ charImage f s) : ∃ a ∈ s, c ∈ f a := by
  induction s with
  | nil => simp [charImage] at h
  | cons b bs ih =>
    simp only [charImage, List.mem_append] at h
    rcases h with h | h
    · exact ⟨b, by simp, h⟩
    · rcases ih h with ⟨a, ha, hc⟩
      exact ⟨a, by simp [ha], hc⟩

theorem escCharSpec_plain (a : Char) : ∀ c ∈ escCharSpec a, PlainChar c := by
  intro c hc
  simp only [escCharSpec] at hc
  by_cases h1 : a = '&'
  · simp [h1] at hc
    revert hc
    revert c
    decide
  · by_cases h2 : a = '<'
    · simp [h1, h2] at hc
      revert hc
      revert c
      decide
    · by_cases h3 : a = '>'
      · simp [h1, h2, h3] at hc
        revert hc
        revert c
        decide
      · simp [h1, h2, h3] at hc
        subst hc
        exact ⟨h2, h3⟩

theorem escapeHtml_plain (s : List Char) : ∀ c ∈ escapeHtml s, PlainChar c := by
  intro c hc
  rw [escapeHtml_charImage] at hc
  rcases charImage_mem hc with ⟨a, _, hc2⟩
  exact escCharSpec_plain a c hc2

theorem escapeHtml_nul {s : List Char} (h : nulChar ∉ s) :
    nulChar ∉ escapeHtml s := by
  intro hc
  rw [escapeHtml_charImage] at hc
  rcases charImage_mem hc with ⟨a, ha, hc2⟩
  simp only [escCharSpec] at hc2
  by_cases h1 : a = '&'
  · simp [h1] at hc2
    exact absurd hc2 (by decide)
  · by_cases h2 : a = '<'
    · simp [h1, h2] at hc2
      exact absurd hc2 (by decide)
    · by_cases h3 : a = '>'
      · simp [h1, h2, h3] at hc2
        exact absurd hc2 (by decide)
      · simp [h1, h2, h3] at hc2
        subst hc2
        exact h ha

theorem jsReplaceF_inv {σ : Type} (mt : Option Char → List Char → Option Nat)
    (f : List Char → σ → List Char × σ)
    (P : Char → Prop) (Q : σ → Prop)
    (hf : ∀ m st, (∀ c ∈ m, P c) → Q st →
      (∀ c ∈ (f m st).1, P c) ∧ Q (f m st).2) :
    ∀ (fuel : Nat) (p : Option Char) (s : List Char) (st : σ),
      (∀ c ∈ s, P c) → Q st →
      (∀ c ∈ (jsReplaceF mt f fuel p s st).1, P c) ∧
        Q (jsReplaceF mt f fuel p s st).2 := by
  intro fuel
  induction fuel with
  | zero =>
    intro p s st hs hst
    cases s with
    | nil => exact ⟨by simp [jsReplaceF], by simpa [jsReplaceF] using hst⟩
    | cons c cs =>
      exact ⟨by simpa [jsReplaceF] using hs, by simpa [jsReplaceF] using hst⟩
  | succ fuel ih =>
    intro p s st hs hst
    cases s with
    | nil => exact ⟨by simp [jsReplaceF], by simpa [jsReplaceF] using hst⟩
    | cons c cs =>
      cases hmt : mt p (c :: cs) with
      | none =>
        have hrec := ih (some c) cs st (fun u hu => hs u (by simp [hu])) hst
        constructor
        · intro u hu
          simp only [jsReplaceF, hmt] at hu
          rcases List.mem_cons.1 hu with h | h
          · subst h; exact hs u (by simp)
          · exact hrec.1 u h
        · simp only [jsReplaceF, hmt]
          exact hrec.2
      | some n =>
        by_cases hn : 0 < n
        · have hm : ∀ c2 ∈ (c :: cs).take n, P c2 :=
            fun c2 hc2 => hs c2 (List.take_subset n (c :: cs) hc2)
          have hf1 := hf ((c :: cs).take n) st hm hst
          have hrec := ih ((c :: cs).take n).getLast? ((c :: cs).drop n)
            (f ((c :: cs).take n) st).2
            (fun u hu => hs u (List.drop_subset n (c :: cs) hu)) hf1.2
          constructor
          · intro u hu
            simp only [jsReplaceF, hmt, if_pos hn] at hu
            rcases List.mem_append.1 hu with h | h
            · exact hf1.1 u h
            · exact hrec.1 u h
          · simp only [jsReplaceF, hmt, if_pos hn]
            exact hrec.2
        · have hf1 := hf [] st (by simp) hst
          have hrec := ih (some c) cs (f [] st).2
            (fun u hu => hs u (by simp [hu])) hf1.2
          constructor
          · intro u hu
            simp only [jsReplaceF, hmt, if_neg hn] at hu
            rcases List.mem_append.1 hu with h | h
            · exact hf1.1 u h
            · rcases List.mem_cons.1 h with h2 | h2
              · subst h2; exact hs u (by simp)
              · exact hrec.1 u h2
          · simp only [jsReplaceF, hmt, if_neg hn]
            exact hrec.2

theorem digitChar_plain {d : Nat} (h : d < 10) : PlainChar (digitChar d) := by
  interval_cases d <;> decide

theorem natDigitsAux_mem :
    ∀ (fuel n : Nat) (acc : List Char) (c : Char),
      c ∈ natDigitsAux fuel n acc → c ∈ acc ∨ ∃ d, d < 10 ∧ c = digitChar d := by
  intro fuel
  induction fuel with
  | zero =>
    intro n acc c hc
    cases n with
    | zero => exact Or.inl (by simpa [natDigitsAux] using hc)
    | succ m => exact Or.inl (by simpa [natDigitsAux] using hc)
  | succ fuel ih =>
    intro n acc c hc
    cases n with
    | zero => exact Or.inl (by simpa [natDigitsAux] using hc)
    | succ m =>
      simp only [natDigitsAux] at hc
      rcases ih _ _ _ hc with h | h
      · rcases List.mem_cons.1 h with h2 | h2
        · exact Or.inr ⟨(m + 1) % 10, Nat.mod_lt _ (by omega), h2⟩
        · exact Or.inl h2
      · exact Or.inr h

theorem natDigits_plain (n : Nat) : ∀ c ∈ natDigits n, PlainChar c := by
  intro c hc
  cases n with
  | zero =>
    simp only [natDigits] at hc
    rcases List.mem_singleton.1 hc with rfl
    decide
  | succ m =>
    simp only [natDigits] at hc
    rcases natDigitsAux_mem _ _ _ _ hc with h | ⟨d, hd, rfl⟩
    · simp at h
    · exact digitChar_plain hd

theorem sentinel_plain (i : Nat) : ∀ c ∈ sentinel i, PlainChar c := by
  intro c hc
  simp only [sentinel, List.mem_cons, List.mem_append] at hc
  rcases hc with rfl | hc | hc
  · decide
  · exact natDigits_plain i c hc
  · have h2 : c = nulChar := by simpa using hc
    subst h2
    decide

theorem placeholder_ok {cls : List Char} (hcls : cls ∈ classes) :
    ∀ m st, (∀ c ∈ m, PlainChar c) → LedgerOk st →
      (∀ c ∈ (placeholder cls m st).1, PlainChar c) ∧
        LedgerOk (placeholder cls m st).2 := by
  intro m st hm hst
  constructor
  · exact fun c hc => sentinel_plain st.length c hc
  · intro e he
    simp only [placeholder, List.mem_append, List.mem_singleton] at he
    rcases he with h | rfl
    · exact hst e h
    · exact ⟨cls, m, hcls, hm, rfl⟩

theorem runPat_ok {cls : List Char} (re : RE) {s : List Char}
    {led : List (List Char)} (hcls : cls ∈ classes)
    (hs : ∀ c ∈ s, PlainChar c) (hled : LedgerOk led) :
    (∀ c ∈ (runPat cls re s led).1, PlainChar c) ∧
      LedgerOk (runPat cls re s led).2 := by
  unfold runPat jsReplace
  exact jsReplaceF_inv (matchAt re) (placeholder cls) PlainChar LedgerOk
    (placeholder_ok hcls) s.length none s led hs hled

theorem runPatOpt_ok (cls : List Char) (re : Option RE)
    {p : List Char × List (List Char)} (hcls : cls ∈ classes)
    (hp : StateOk p) : StateOk (runPatOpt cls re p) := by
  cases re with
  | none => exact hp
  | some r => exact runPat_ok r hcls hp.1 hp.2

theorem runWordsOpt_ok (cls : List Char) (ws : Option (List (List Char)))
    {p : List Char × List (List Char)} (hcls : cls ∈ classes)
    (hp : StateOk p) : StateOk (runWordsOpt cls ws p) := by
  cases ws with
  | none => exact hp
  | some w => exact runPat_ok (reWords w) hcls hp.1 hp.2

theorem restoreRep_ok {led : List (List Char)} (hled : LedgerOk led)
    (m : List Char) :
    ∃ q : Piece, restoreRep led m = renderPiece q ∧ PieceOk q := by
  unfold restoreRep
  cases hg : led.get? (parseDigits (m.drop 1).dropLast) with
  | none =>
    refine ⟨.chunk (toL "undefined"), rfl, ?_⟩
    intro c hc
    revert c
    decide
  | some e =>
    rcases hled e (List.get?_mem hg) with ⟨cls, mm, hcls, hmm, rfl⟩
    exact ⟨.tag cls mm, rfl, hcls, hmm⟩

theorem restore_decomp_aux :
    ∀ (fuel : Nat) (p : Option Char) (s : List Char) (led : List (List Char)),
      (∀ c ∈ s, PlainChar c) → LedgerOk led →
      ∃ ps, (jsReplaceF (matchAt reSentinel) (fun m l => (restoreRep l m, l))
          fuel p s led).1 = renderPieces ps ∧ ∀ q ∈ ps, PieceOk q := by
  intro fuel
  induction fuel with
  | zero =>
    intro p s led hs _
    cases s with
    | nil => exact ⟨[], by simp [jsReplaceF, renderPieces], by simp⟩
    | cons c cs =>
      refine ⟨[.chunk (c :: cs)], ?_, ?_⟩
      · simp [jsReplaceF, renderPieces, renderPiece]
      · intro q hq
        rcases List.mem_singleton.1 hq with rfl
        exact hs
  | succ fuel ih =>
    intro p s led hs hled
    cases s with
    | nil => exact ⟨[], by simp [jsReplaceF, renderPieces], by simp⟩
    | cons c cs =>
      cases hmt : matchAt reSentinel p (c :: cs) with
      | none =>
        rcases ih (some c) cs led (fun u hu => hs u (by simp [hu])) hled
          with ⟨ps, hps, hok⟩
        refine ⟨.chunk [c] :: ps, ?_, ?_⟩
        · simp only [jsReplaceF, hmt, renderPieces, renderPiece]
          simp [hps]
        · intro q hq
          rcases List.mem_cons.1 hq with rfl | hq2
          · intro u hu
            rcases List.mem_singleton.1 hu with rfl
            exact hs u (by simp)
          · exact hok q hq2
      | some n =>
        by_cases hn : 0 < n
        · rcases restoreRep_ok hled ((c :: cs).take n) with ⟨q1, hq1, hq1ok⟩
          rcases ih ((c :: cs).take n).getLast? ((c :: cs).drop n) led
            (fun u hu => hs u (List.drop_subset n (c :: cs) hu)) hled
            with ⟨ps, hps, hok⟩
          refine ⟨q1 :: ps, ?_, ?_⟩
          · simp only [jsReplaceF, hmt, if_pos hn, renderPieces]
            rw [← hq1, hps]
          · intro q hq
            rcases List.mem_cons.1 hq with rfl | hq2
            · exact hq1ok
            · exact hok q hq2
        · rcases restoreRep_ok hled [] with ⟨q1, hq1, hq1ok⟩
          rcases ih (some c) cs led (fun u hu => hs u (by simp [hu])) hled
            with ⟨ps, hps, hok⟩
          refine ⟨q1 :: .chunk [c] :: ps, ?_, ?_⟩
          · simp only [jsReplaceF, hmt, if_neg hn, renderPieces]
            rw [← hq1, hps]
            simp [renderPiece]
          · intro q hq
            rcases List.mem_cons.1 hq with rfl | hq2
            · exact hq1ok
            · rcases List.mem_cons.1 hq2 with rfl | hq3
              · intro u hu
                rcases List.mem_singleton.1 hu with rfl
                exact hs u (by simp)
              · exact hok q hq3

theorem restore_decomp (s : List Char) (led : List (List Char))
    (hs : ∀ c ∈ s, PlainChar c) (hled : LedgerOk led) :
    ∃ ps, restore s led = renderPieces ps ∧ ∀ q ∈ ps, PieceOk q := by
  unfold restore jsReplace
  exact restore_decomp_aux s.length none s led hs hled

/-- Main structural theorem: every output of `highlight` is a
concatenation of plain chunks and well-formed category spans. -/
theorem highlight_decomp (code : List Char) (language : Option (List Char)) :
    ∃ ps, highlight code language = renderPieces ps ∧ ∀ q ∈ ps, PieceOk q := by
  unfold highlight
  cases hlr : langRules language with
  | none =>
    refine ⟨[.chunk (escapeHtml code)], ?_, ?_⟩
    · simp [renderPieces, renderPiece]
    · intro q hq
      rcases List.mem_singleton.1 hq with rfl
      exact escapeHtml_plain code
  | some rules =>
    have h0 : StateOk (escapeHtml code, ([] : List (List Char))) := by
      refine ⟨escapeHtml_plain code, ?_⟩
      intro e he
      simp at he
    have h1 := runPatOpt_ok (toL "comment") rules.comments (by decide) h0
    have h2 := runPatOpt_ok (toL "string") rules.strings (by decide) h1
    have h3 := runPatOpt_ok (toL "number") rules.numbers (by decide) h2
    have h4 := runPatOpt_ok (toL "function") rules.functions (by decide) h3
    have h5 := runWordsOpt_ok (toL "keyword") rules.keywords (by decide) h4
    have h6 := runWordsOpt_ok (toL "type") rules.types (by decide) h5
    have h7 := runWordsOpt_ok (toL "builtin") rules.builtins (by decide) h6
    exact restore_decomp _ _ h7.1 h7.2

theorem hasSub_ltspan {s : List Char} (hs : ∀ c ∈ s, PlainChar c) :
    hasSub s (toL "<span") = false := by
  induction s with
  | nil => decide
  | cons c cs ih =>
    simp only [hasSub]
    rw [isPrefixOf_head_ne (by decide) (hs c (by simp)).1]
    simp only [Bool.false_or]
    exact ih (fun u hu => hs u (by simp [hu]))

/-- C1: for every input code and every language (in particular every
language defining both `comments` and `keywords` rules, such as
`javascript`), no keyword occurrence lying inside a span matched by the
comments pass is wrapped in an `hl-keyword` span in the output of
`highlight`: inside every rendered comment span (from its opening tag to
the first closing tag) no `<span class="hl-keyword">` tag occurs, because
the comments pass moves its matches to the placeholder ledger and the
restoration pass inserts ledger entries verbatim. -/
theorem c1_no_keyword_inside_comment (code : List Char)
    (language : Option (List Char)) :
    noKwInComment (highlight code language) = true := by
  rcases highlight_decomp code language with ⟨ps, heq, hok⟩
  rw [heq]
  exact noKw_render ps hok

/-- C2 (refuted, code bug): on `highlight("// x", "javascript")` a
sentinel token survives in the final output (the marker byte `\x00`
occurs in the result), and the ledger entry created by the comments pass
is never inserted: the numbers pass matches the decimal digits inside the
comment's sentinel token and corrupts it before restoration. -/
theorem c2_sentinel_survives :
    nulChar ∈ highlight (toL "// x") (some (toL "javascript")) ∧
      hasSub (highlight (toL "// x") (some (toL "javascript")))
        (toL "<span class=\"hl-comment\">") = false := ⟨by decide, by decide⟩

/-- C3 (counterexample): `escapeHtml` does not remove the sentinel marker
byte: on the one-char input `"\x00"` the escaped text still contains
`\x00`, so escaped source text can collide with sentinel tokens. -/
theorem c3_nul_survives_escape : nulChar ∈ escapeHtml [nulChar] := by decide

/-- C3 (amended): for every input that does not already contain the
marker byte `\x00`, the escaped text contains no `\x00` — `escapeHtml`
itself never introduces the marker byte. -/
theorem c3_escape_introduces_no_nul {s : List Char} (h : nulChar ∉ s) :
    nulChar ∉ escapeHtml s :=
  escapeHtml_nul h

/-- Witness for the amended C3 at the concrete input `"a&b"`. -/
theorem c3_escape_introduces_no_nul_witness :
    nulChar ∉ toL "a&b" ∧ nulChar ∉ escapeHtml (toL "a&b") :=
  ⟨by decide, c3_escape_introduces_no_nul (by decide)⟩

/-- C4 (refuted, code bug): on the spec's concrete test case
`highlight('const x = "function() {}";', 'javascript')` the engine does
classify `const` as `hl-keyword`, but the quoted literal is NOT wrapped
in an `hl-string` span: the numbers pass matches the digit inside the
string's sentinel token, so restoration never re-inserts the string span
and the output contains raw marker bytes instead. -/
theorem c4_string_span_lost :
    highlight (toL "const x = \"function() \x7b\x7d\";") (some (toL "javascript"))
      = toL "<span class=\"hl-keyword\">const</span> x = \x00<span class=\"hl-number\">0</span>\x00;" ∧
      hasSub (highlight (toL "const x = \"function() \x7b\x7d\";")
          (some (toL "javascript")))
        (toL "<span class=\"hl-string\">") = false := ⟨by decide, by decide⟩

/-- C5 (refuted, code bug): `highlight` can drop content.  On
`highlight("// x", "javascript")`, removing the engine's own wrapper tags
from the output does not give back the escaped input: the comment text is
lost and stray sentinel bytes remain. -/
theorem c5_drops_content :
    removeTags (highlight (toL "// x") (some (toL "javascript")))
        ≠ escapeHtml (toL "// x") ∧
      highlight (toL "// x") (some (toL "javascript"))
        = toL "\x00<span class=\"hl-number\">0</span>\x00" := ⟨by decide, by decide⟩

/-- C6: for every input code and every language tag, the output of
`highlight` passes the wrapper checker: every `<` begins one of the
engine's own wrapper tags `<span class="hl-C">` with `C` among the seven
categories comment, string, number, function, keyword, type, builtin, or
the closing tag `</span>`, and `>` occurs only inside those tags.  In
particular no unescaped `<`/`>` from the input survives and no
`hl-operator` span is ever emitted (the checker accepts no other class). -/
theorem c6_only_own_wrappers (code : List Char) (language : Option (List Char)) :
    wfs (highlight code language) = true := by
  rcases highlight_decomp code language with ⟨ps, heq, hok⟩
  rw [heq]
  exact wfs_render ps hok

/-- C7 (counterexample): the original claim — every unrecognized language
tag returns exactly `escapeHtml(code)` — fails on the code.  The tag
`"constructor"` is not a key of the rule table, yet `languages[lang]`
reaches `Object.prototype.constructor`, a truthy object without rule
fields, so the early "no rules" return is not taken: every pass is
skipped but the restoration replace still runs, and on the input
`"\x005\x00"` it turns the sentinel-shaped input into `"undefined"`
(`placeholders[5]` on an empty ledger). -/
theorem c7_prototype_key_counterexample :
    highlight (toL "\x005\x00") (some (toL "constructor"))
        ≠ escapeHtml (toL "\x005\x00") ∧
      highlight (toL "\x005\x00") (some (toL "constructor"))
        = toL "undefined" := ⟨by decide, by decide⟩

/-- C7 (amended): whenever the language tag resolves to no rule set at
all (unknown key after lowercasing, empty tag, or no tag — excluding the
two `Object.prototype` property names `constructor` and `__proto__`,
which resolve to a truthy non-rule object instead), `highlight` returns
exactly the escaped input, which contains no `<span` wrapper at all. -/
theorem c7_unknown_language (code : List Char) (language : Option (List Char))
    (h : langRules language = none) :
    highlight code language = escapeHtml code ∧
      hasSub (highlight code language) (toL "<span") = false := by
  have heq : highlight code language = escapeHtml code := by
    simp [highlight, h]
  refine ⟨heq, ?_⟩
  rw [heq]
  exact hasSub_ltspan (escapeHtml_plain code)

/-- Witness for C7 at the concrete input `highlight("a<b", "brainfuck")`. -/
theorem c7_unknown_language_witness :
    langRules (some (toL "brainfuck")) = none ∧
      (highlight (toL "a<b") (some (toL "brainfuck")) = escapeHtml (toL "a<b") ∧
        hasSub (highlight (toL "a<b") (some (toL "brainfuck"))) (toL "<span")
          = false) :=
  ⟨by rfl, c7_unknown_language (toL "a<b") (some (toL "brainfuck")) (by rfl)⟩

/-- C8: `escapeHtml` equals the character-by-character image of the input
under the three-entry substitution `&` ↦ `&amp;`, `<` ↦ `&lt;`,
`>` ↦ `&gt;`, every other character (Unicode included) kept verbatim. -/
theorem c8_escape_is_charwise_substitution (s : List Char) :
    escapeHtml s = charImage escCharSpec s :=
  escapeHtml_charImage s

/-- C9: the two concrete detector cases of the spec:
`detectLanguage('#!/bin/bash\necho hi')` returns `bash` (first heuristic
in the fixed order) and `detectLanguage('{"a":1}')` returns `json`. -/
theorem c9_detect_concrete_cases :
    detectLanguage (toL "#!/bin/bash\necho hi") = some (toL "bash") ∧
      detectLanguage (toL "\x7b\"a\":1\x7d") = some (toL "json") :=
  ⟨by decide, by decide⟩

/-- C10: double application of `highlight` is not output-preserving:
on the input `"&"` with language `javascript`, highlighting the already
highlighted output escapes the `&` of `&amp;` again. -/
theorem c10_double_application_differs :
    highlight (highlight (toL "&") (some (toL "javascript")))
        (some (toL "javascript"))
      ≠ highlight (toL "&") (some (toL "javascript")) := by decide

end CHV
